import Mathlib

/-!
Shallow embedding of `src/3-pipeline/csrc/rsqrt-c.c`.

The C file implements a Q16 fixed-point reciprocal square root
`fast_rsqrt : uint32 → uint32` built from three pieces:

* `mul32` — a 32×32→64 shift-add multiply (no MUL instruction),
* `clz`   — count leading zeros of a 32-bit word by binary narrowing,
* a 32-entry lookup table `rsqrt_table` of initial estimates for
  `65536 / sqrt(2^e)`, refined by linear interpolation and two
  Newton–Raphson iterations.

Machine integers are modelled as `Nat` with explicit `% 2^32` (resp.
`% 2^64`) wherever the C code can wrap; `uint32` subtraction `a - b`
is modelled as `(2^32 + a - b) % 2^32`, which agrees with two's
complement wraparound for all `a b < 2^32`.
-/

set_option maxRecDepth 100000

namespace Rsqrt

/-- `mul32` from rsqrt-c.c: for each set bit `i` of `b`, add `a << i`
into a 64-bit accumulator (lines C01/C02). -/
def mul32 (a b : Nat) : Nat :=
  (List.range 32).foldl
    (fun r i => if b &&& (1 <<< i) ≠ 0 then (r + (a <<< i)) % 2 ^ 64 else r) 0

/-- One conditional narrowing step of `clz`: if `x & m == 0` then
`n += s; x <<= s` (the shift truncated to 32 bits), else unchanged.
State is the pair `(x, n)`. -/
def clzStep (m s : Nat) (p : Nat × Nat) : Nat × Nat :=
  if p.1 &&& m = 0 then ((p.1 <<< s) % 2 ^ 32, p.2 + s) else p

/-- `clz` from rsqrt-c.c: count leading zeros of a 32-bit word;
`clz 0 = 32`, otherwise four mask-and-shift narrowing steps followed
by the final top-bit test. -/
def clz (x : Nat) : Nat :=
  if x = 0 then 32
  else
    let p := clzStep 0xFFFF0000 16 (x, 0)
    let p := clzStep 0xFF000000 8 p
    let p := clzStep 0xF0000000 4 p
    let p := clzStep 0xC0000000 2 p
    if p.1 &&& 0x80000000 = 0 then p.2 + 1 else p.2

/-- The static lookup table `rsqrt_table[32]` from rsqrt-c.c:
initial estimates for `65536 / sqrt(2^e)`, `e = 0..31`. -/
def rsqrt_table : List Nat :=
  [65536, 46341, 32768, 23170, 16384,
   11585, 8192, 5793, 4096, 2896,
   2048, 1448, 1024, 724, 512,
   362, 256, 181, 128, 90,
   64, 45, 32, 23, 16,
   11, 8, 6, 4, 3,
   2, 1]

/-- Array indexing `rsqrt_table[e]` (total, defaulting to 0 out of
bounds; the C code only indexes with `e ≤ 31`). -/
def tableAt (e : Nat) : Nat := rsqrt_table.getD e 0

/-- Steps 1–3 of `fast_rsqrt` for `x ≥ 2`: exponent extraction,
table lookup, and the linear-interpolation correction for inputs that
are not powers of two (lines C03–C08). -/
def interp (x : Nat) : Nat :=
  let exp := 31 - clz x
  let y := tableAt exp
  if 1 <<< exp < x then
    let y_next := if exp < 31 then tableAt (exp + 1) else 0
    let delta := (2 ^ 32 + y - y_next) % 2 ^ 32
    let frac := ((((x - (1 <<< exp)) <<< 16) % 2 ^ 64) >>> exp) % 2 ^ 32
    let corr := (mul32 delta frac >>> 16) % 2 ^ 32
    (2 ^ 32 + y - corr) % 2 ^ 32
  else y

/-- One Newton–Raphson iteration of `fast_rsqrt` (lines C09–C11):
`y := (y * ((3<<16) - ((x*y^2) >> 16))) >> 17`, all in the C widths. -/
def newton_iter (x y : Nat) : Nat :=
  let y2 := mul32 y y % 2 ^ 32
  let xy2 := (mul32 x y2 >>> 16) % 2 ^ 32
  (mul32 y (((3 <<< 16) + 2 ^ 32 - xy2) % 2 ^ 32) >>> 17) % 2 ^ 32

/-- `fast_rsqrt` from rsqrt-c.c: edge cases for 0 and 1, then lookup +
interpolation (`interp`) followed by two Newton iterations. -/
def fast_rsqrt (x : Nat) : Nat :=
  if x = 0 then 0xFFFFFFFF
  else if x = 1 then 65536
  else newton_iter x (newton_iter x (interp x))

/-- Formalisation of the claimed rounding (spec side, for C6): `n` is the
integer nearest to `65536 / sqrt(2^e)`.  Squaring the defining inequalities
`n - 1/2 < 65536/sqrt(2^e) < n + 1/2` gives
`(2n-1)^2 < 2^(34-e) < (2n+1)^2`; for `e ≤ 31` the middle term is a power
of two with exponent ≥ 3, never an odd perfect square, so ties are
impossible and this characterisation is exact. -/
def isRoundInvSqrt (e n : Nat) : Prop :=
  (2 * n - 1) ^ 2 < 2 ^ (34 - e) ∧ 2 ^ (34 - e) < (2 * n + 1) ^ 2

instance (e n : Nat) : Decidable (isRoundInvSqrt e n) := by
  unfold isRoundInvSqrt; infer_instance

/-- Bound-safe next table entry (line C05): `rsqrt_table[exp+1]` for
`exp < 31`, else 0. -/
def y_next (exp : Nat) : Nat := if exp < 31 then tableAt (exp + 1) else 0

/-- The claim's interpolation gap `delta = rsqrt_table[exp] - y_next`
(line C06, here as exact natural subtraction). -/
def deltaAt (exp : Nat) : Nat := tableAt exp - y_next exp

/-- The claim's interpolation fraction
`frac = ((x - 2^exp) << 16) >> exp` (line C07, exact form). -/
def fracAt (x exp : Nat) : Nat := ((x - (1 <<< exp)) <<< 16) >>> exp

/-- The claim's correction term `(mul32 delta frac) >> 16` (line C08). -/
def corrAt (x exp : Nat) : Nat := mul32 (deltaAt exp) (fracAt x exp) >>> 16

/-! ### Correctness of `mul32` -/

/-- After `n ≤ 32` iterations the accumulator holds `a * (b mod 2^n)`;
no 64-bit wraparound ever occurs for `a < 2^32`. -/
theorem mul32_loop (a b : Nat) (ha : a < 2 ^ 32) :
    ∀ n, n ≤ 32 →
      (List.range n).foldl
        (fun r i => if b &&& (1 <<< i) ≠ 0 then (r + (a <<< i)) % 2 ^ 64 else r) 0
        = a * (b % 2 ^ n) := by
  intro n
  induction n with
  | zero => intro _; simp [Nat.mod_one]
  | succ n ih =>
    intro hn
    rw [List.range_succ, List.foldl_append, ih (by omega)]
    have hmod : b % 2 ^ (n + 1) = b % 2 ^ n + 2 ^ n * (b / 2 ^ n % 2) := by
      rw [pow_succ, Nat.mod_mul]
    have hguard : b &&& (1 <<< n) = (b.testBit n).toNat * 2 ^ n := by
      rw [Nat.one_shiftLeft, Nat.and_two_pow]
    have htn : (b.testBit n).toNat = b / 2 ^ n % 2 := Nat.toNat_testBit b n
    simp only [List.foldl_cons, List.foldl_nil]
    by_cases ht : b.testBit n
    · rw [if_pos (by rw [hguard, ht]; simp), Nat.shiftLeft_eq]
      have hdiv : b / 2 ^ n % 2 = 1 := by rw [← htn, ht]; rfl
      have hsum : a * (b % 2 ^ n) + a * 2 ^ n = a * (b % 2 ^ (n + 1)) := by
        rw [hmod, hdiv, Nat.mul_one, Nat.mul_add]
      rw [hsum]
      have hb' : b % 2 ^ (n + 1) < 2 ^ 32 :=
        lt_of_lt_of_le (Nat.mod_lt b (Nat.two_pow_pos (n + 1)))
          (Nat.pow_le_pow_right (by norm_num) (by omega))
      have hlt : a * (b % 2 ^ (n + 1)) < 2 ^ 64 := by
        calc a * (b % 2 ^ (n + 1)) ≤ a * 2 ^ 32 :=
              Nat.mul_le_mul_left a (Nat.le_of_lt hb')
          _ < 2 ^ 32 * 2 ^ 32 := by
              exact Nat.mul_lt_mul_of_lt_of_le ha (le_refl _) (Nat.two_pow_pos 32)
          _ = 2 ^ 64 := by norm_num
      exact Nat.mod_eq_of_lt hlt
    · rw [if_neg (by rw [hguard]; simp [ht])]
      have hdiv : b / 2 ^ n % 2 = 0 := by
        rw [← htn]; cases h : b.testBit n with
        | false => rfl
        | true => exact absurd h ht
      rw [hmod, hdiv, Nat.mul_zero, Nat.add_zero]

/-- For 32-bit inputs, `mul32` computes the exact product. -/
theorem mul32_exact {a b : Nat} (ha : a < 2 ^ 32) (hb : b < 2 ^ 32) :
    mul32 a b = a * b := by
  unfold mul32
  rw [mul32_loop a b ha 32 (le_refl 32), Nat.mod_eq_of_lt hb]

/-- C2: for all unsigned 32-bit integers `a` and `b`, `mul32 a b` equals the
exact mathematical product `a * b`, which fits in 64 bits with no
truncation. -/
theorem c2_mul32_exact_product (a b : Nat) (ha : a < 2 ^ 32) (hb : b < 2 ^ 32) :
    mul32 a b = a * b ∧ mul32 a b < 2 ^ 64 := by
  have h := mul32_exact ha hb
  refine ⟨h, ?_⟩
  rw [h]
  calc a * b ≤ a * 2 ^ 32 := Nat.mul_le_mul_left a (Nat.le_of_lt hb)
    _ < 2 ^ 32 * 2 ^ 32 := Nat.mul_lt_mul_of_lt_of_le ha (le_refl _) (Nat.two_pow_pos 32)
    _ = 2 ^ 64 := by norm_num

/-- Witness for C2 at the extreme pair `(0xFFFFFFFF, 0xFFFFFFFF)`. -/
theorem c2_mul32_exact_product_witness :
    mul32 0xFFFFFFFF 0xFFFFFFFF = 0xFFFFFFFF * 0xFFFFFFFF ∧
      mul32 0xFFFFFFFF 0xFFFFFFFF < 2 ^ 64 :=
  c2_mul32_exact_product 0xFFFFFFFF 0xFFFFFFFF (by norm_num) (by norm_num)

/-! ### Correctness of `clz` -/

/-- Bits of the mask `2^n - 2^k`: exactly positions `k ≤ i < n`. -/
theorem testBit_mask (n k i : Nat) (hk : k ≤ n) :
    (2 ^ n - 2 ^ k).testBit i = (decide (k ≤ i) && decide (i < n)) := by
  have hm : 2 ^ n - 2 ^ k = (2 ^ (n - k) - 1) <<< k := by
    rw [Nat.shiftLeft_eq, Nat.sub_mul, Nat.one_mul, ← pow_add, Nat.sub_add_cancel hk]
  rw [hm, Nat.testBit_shiftLeft, Nat.testBit_two_pow_sub_one, ← Bool.decide_and,
    ← Bool.decide_and]
  exact decide_eq_decide.mpr (by omega)

/-- For `x < 2^n`, the test `x & (2^n - 2^k) == 0` detects `x < 2^k`. -/
theorem and_mask_eq_zero_iff (x n k : Nat) (hx : x < 2 ^ n) (hk : k ≤ n) :
    x &&& (2 ^ n - 2 ^ k) = 0 ↔ x < 2 ^ k := by
  constructor
  · intro h
    by_contra hlt
    push_neg at hlt
    have hx0 : x ≠ 0 := by have := Nat.two_pow_pos k; omega
    have hkl : k ≤ Nat.log2 x := (Nat.le_log2 hx0).mpr hlt
    have hln : Nat.log2 x < n := (Nat.log2_lt hx0).mpr hx
    have hdiv : x / 2 ^ Nat.log2 x = 1 := by
      have h1 : 2 ^ Nat.log2 x ≤ x := Nat.log2_self_le hx0
      have h2 : x < 2 ^ (Nat.log2 x + 1) := Nat.lt_log2_self
      have h3 : 1 ≤ x / 2 ^ Nat.log2 x :=
        (Nat.one_le_div_iff (Nat.two_pow_pos _)).mpr h1
      have h4 : x / 2 ^ Nat.log2 x < 2 := by
        rw [Nat.div_lt_iff_lt_mul (Nat.two_pow_pos _)]
        calc x < 2 ^ (Nat.log2 x + 1) := h2
          _ = 2 * 2 ^ Nat.log2 x := by ring
      omega
    have hbit : x.testBit (Nat.log2 x) = true := by
      rw [Nat.testBit_to_div_mod, hdiv]
      norm_num
    have hz := congrArg (fun t => t.testBit (Nat.log2 x)) h
    simp only [Nat.testBit_and, Nat.zero_testBit, testBit_mask n k _ hk, hbit,
      Bool.true_and, Bool.and_eq_false_iff, decide_eq_false_iff_not] at hz
    rcases hz with hz | hz
    · exact hz hkl
    · exact hz hln
  · intro h
    apply Nat.eq_of_testBit_eq
    intro i
    rw [Nat.testBit_and, testBit_mask n k i hk, Nat.zero_testBit]
    by_cases hik : k ≤ i
    · have : x.testBit i = false :=
        Nat.testBit_lt_two_pow
          (lt_of_lt_of_le h (Nat.pow_le_pow_right (by norm_num) hik))
      simp [this]
    · simp [hik]

/-- `Nat.log2` is characterised by the enclosing power-of-two interval. -/
theorem log2_eq_of {e x : Nat} (h1 : 2 ^ e ≤ x) (h2 : x < 2 ^ (e + 1)) :
    Nat.log2 x = e := by
  have hx : x ≠ 0 := by have := Nat.two_pow_pos e; omega
  have ha := (Nat.le_log2 hx).mpr h1
  have hb := (Nat.log2_lt hx).mpr h2
  omega

/-- Shifting left by `s` raises `Nat.log2` by `s`. -/
theorem log2_mul_pow {x : Nat} (hx : x ≠ 0) (s : Nat) :
    Nat.log2 (x * 2 ^ s) = Nat.log2 x + s := by
  apply log2_eq_of
  · rw [pow_add]
    exact Nat.mul_le_mul_right _ (Nat.log2_self_le hx)
  · calc x * 2 ^ s < 2 ^ (Nat.log2 x + 1) * 2 ^ s :=
        Nat.mul_lt_mul_of_lt_of_le Nat.lt_log2_self (le_refl _) (Nat.two_pow_pos s)
      _ = 2 ^ (Nat.log2 x + s + 1) := by rw [← pow_add]; congr 1; omega

/-- One `clz` narrowing step with mask `2^32 - 2^k` and shift `s`
(`k + s = 32`): it preserves `x < 2^32`, raises the lower bound from
`2^lo` to `2^k`, and keeps `n + log2 x` invariant. -/
theorem clzStep_spec (s k lo : Nat) (p : Nat × Nat) (hs : 0 < s)
    (hks : k + s = 32) (hlo_eq : lo + s = k)
    (hlo : 2 ^ lo ≤ p.1) (hhi : p.1 < 2 ^ 32) :
    2 ^ k ≤ (clzStep (2 ^ 32 - 2 ^ k) s p).1 ∧
      (clzStep (2 ^ 32 - 2 ^ k) s p).1 < 2 ^ 32 ∧
      Nat.log2 (clzStep (2 ^ 32 - 2 ^ k) s p).1 + p.2
        = Nat.log2 p.1 + (clzStep (2 ^ 32 - 2 ^ k) s p).2 := by
  have hmask := and_mask_eq_zero_iff p.1 32 k hhi (by omega)
  unfold clzStep
  by_cases hc : p.1 &&& (2 ^ 32 - 2 ^ k) = 0
  · rw [if_pos hc]
    have hlt : p.1 < 2 ^ k := hmask.mp hc
    have hp0 : p.1 ≠ 0 := by have := Nat.two_pow_pos lo; omega
    have hub : p.1 * 2 ^ s < 2 ^ 32 := by
      calc p.1 * 2 ^ s < 2 ^ k * 2 ^ s :=
          Nat.mul_lt_mul_of_lt_of_le hlt (le_refl _) (Nat.two_pow_pos s)
        _ = 2 ^ 32 := by rw [← pow_add, hks]
    have hmodv : (p.1 <<< s) % 2 ^ 32 = p.1 * 2 ^ s := by
      rw [Nat.shiftLeft_eq]
      exact Nat.mod_eq_of_lt hub
    refine ⟨?_, ?_, ?_⟩
    · show 2 ^ k ≤ (p.1 <<< s) % 2 ^ 32
      rw [hmodv]
      calc 2 ^ k = 2 ^ lo * 2 ^ s := by rw [← pow_add, hlo_eq]
        _ ≤ p.1 * 2 ^ s := Nat.mul_le_mul_right _ hlo
    · show (p.1 <<< s) % 2 ^ 32 < 2 ^ 32
      rw [hmodv]; exact hub
    · show Nat.log2 ((p.1 <<< s) % 2 ^ 32) + p.2 = Nat.log2 p.1 + (p.2 + s)
      rw [hmodv, log2_mul_pow hp0 s]
      omega
  · rw [if_neg hc]
    have hge : 2 ^ k ≤ p.1 := by
      by_contra hg
      push_neg at hg
      exact hc (hmask.mpr hg)
    exact ⟨hge, hhi, by omega⟩

/-- For nonzero 32-bit `x`, `clz x` and `log2 x` are complementary:
`clz x + log2 x = 31`. -/
theorem clz_add_log2 {x : Nat} (h0 : x ≠ 0) (h32 : x < 2 ^ 32) :
    clz x + Nat.log2 x = 31 := by
  have e16 : (0xFFFF0000 : Nat) = 2 ^ 32 - 2 ^ 16 := by norm_num
  have e8 : (0xFF000000 : Nat) = 2 ^ 32 - 2 ^ 24 := by norm_num
  have e4 : (0xF0000000 : Nat) = 2 ^ 32 - 2 ^ 28 := by norm_num
  have e2 : (0xC0000000 : Nat) = 2 ^ 32 - 2 ^ 30 := by norm_num
  have e1 : (0x80000000 : Nat) = 2 ^ 32 - 2 ^ 31 := by norm_num
  simp only [clz]
  rw [if_neg h0, e16, e8, e4, e2, e1]
  obtain ⟨a1, b1, c1⟩ :=
    clzStep_spec 16 16 0 (x, 0) (by norm_num) (by norm_num) (by norm_num)
      (by simpa using Nat.pos_of_ne_zero h0) h32
  obtain ⟨a2, b2, c2⟩ :=
    clzStep_spec 8 24 16 (clzStep (2 ^ 32 - 2 ^ 16) 16 (x, 0)) (by norm_num)
      (by norm_num) (by norm_num) a1 b1
  obtain ⟨a3, b3, c3⟩ :=
    clzStep_spec 4 28 24 (clzStep (2 ^ 32 - 2 ^ 24) 8 (clzStep (2 ^ 32 - 2 ^ 16) 16 (x, 0)))
      (by norm_num) (by norm_num) (by norm_num) a2 b2
  obtain ⟨a4, b4, c4⟩ :=
    clzStep_spec 2 30 28
      (clzStep (2 ^ 32 - 2 ^ 28) 4
        (clzStep (2 ^ 32 - 2 ^ 24) 8 (clzStep (2 ^ 32 - 2 ^ 16) 16 (x, 0))))
      (by norm_num) (by norm_num) (by norm_num) a3 b3
  set q :=
    clzStep (2 ^ 32 - 2 ^ 30) 2
      (clzStep (2 ^ 32 - 2 ^ 28) 4
        (clzStep (2 ^ 32 - 2 ^ 24) 8 (clzStep (2 ^ 32 - 2 ^ 16) 16 (x, 0)))) with hq
  have hm := and_mask_eq_zero_iff q.1 32 31 b4 (by norm_num)
  by_cases hlt : q.1 < 2 ^ 31
  · rw [if_pos (hm.mpr hlt)]
    have hl : Nat.log2 q.1 = 30 := log2_eq_of a4 (by simpa using hlt)
    simp only [Nat.log2_zero] at c1 c2 c3 c4
    omega
  · rw [if_neg (fun h => hlt (hm.mp h))]
    push_neg at hlt
    have hl : Nat.log2 q.1 = 31 := log2_eq_of hlt (by simpa using b4)
    simp only [Nat.log2_zero] at c1 c2 c3 c4
    omega

/-- C3: `clz 0 = 32`; `clz 0x80000000 = 0`; `clz 1 = 31`; and for every
nonzero 32-bit `x`, `clz x` is 31 minus the position of the highest set
bit (`Nat.log2 x`) and lies in `[0, 31]`. -/
theorem c3_clz_spec :
    clz 0 = 32 ∧ clz 0x80000000 = 0 ∧ clz 1 = 31 ∧
      ∀ x : Nat, 0 < x → x < 2 ^ 32 → clz x = 31 - Nat.log2 x ∧ clz x ≤ 31 := by
  refine ⟨by decide, by decide, by decide, ?_⟩
  intro x h0 h32
  have h := clz_add_log2 (Nat.pos_iff_ne_zero.mp h0) h32
  omega

/-- Witness for C3 at `x = 5`. -/
theorem c3_clz_spec_witness :
    clz 5 = 31 - Nat.log2 5 ∧ clz 5 ≤ 31 :=
  c3_clz_spec.2.2.2 5 (by norm_num) (by norm_num)

/-! ### Behaviour on powers of two and at the edge cases -/

/-- C1 counterexample: already at `x = 2^7` the two Newton iterations do
perturb the exact table entry — `fast_rsqrt 128 = 5792`, one below
`rsqrt_table[7] = 5793`. -/
theorem c1_counterexample : fast_rsqrt (2 ^ 7) ≠ tableAt 7 := by decide

/-- C1 amended: `fast_rsqrt (2^e) = rsqrt_table[e]` for every `e` in
`[0, 31]` except `e ∈ {7, 23, 27, 29}`, where Newton refinement rounds the
result down to exactly one below the table entry. -/
theorem c1_amended :
    (∀ e, e < 32 → e ≠ 7 → e ≠ 23 → e ≠ 27 → e ≠ 29 →
        fast_rsqrt (2 ^ e) = tableAt e) ∧
      fast_rsqrt (2 ^ 7) = tableAt 7 - 1 ∧
      fast_rsqrt (2 ^ 23) = tableAt 23 - 1 ∧
      fast_rsqrt (2 ^ 27) = tableAt 27 - 1 ∧
      fast_rsqrt (2 ^ 29) = tableAt 29 - 1 :=
  ⟨by decide, by decide, by decide, by decide, by decide⟩

/-- Witness for C1 (amended) at `e = 4`. -/
theorem c1_amended_witness : fast_rsqrt (2 ^ 4) = tableAt 4 :=
  c1_amended.1 4 (by norm_num) (by norm_num) (by norm_num) (by norm_num) (by norm_num)

/-- C4: the edge cases are exact: `fast_rsqrt 0 = 0xFFFFFFFF` (the
infinity sentinel) and `fast_rsqrt 1 = 65536`. -/
theorem c4_edge_cases : fast_rsqrt 0 = 0xFFFFFFFF ∧ fast_rsqrt 1 = 65536 := by decide

/-- C5: at the extreme input `0xFFFFFFFF` the result is a small nonzero
finite value (in fact 1), not the infinity sentinel. -/
theorem c5_extreme_input :
    0 < fast_rsqrt 0xFFFFFFFF ∧ fast_rsqrt 0xFFFFFFFF ≠ 0xFFFFFFFF := by decide

/-! ### The lookup table versus exact rounding (claim C6) -/

/-- C6 counterexample: `rsqrt_table[19] = 90`, but
`round(65536 / sqrt(2^19)) = round(90.5096…) = 91`. -/
theorem c6_counterexample : ¬ isRoundInvSqrt 19 (tableAt 19) := by decide

/-- C6 amended: the table has 32 entries, is strictly decreasing, and
every entry equals `round(65536 / sqrt(2^e))` except `e = 19`, whose entry
is 90 (the floor) while the correctly rounded value is 91. -/
theorem c6_amended :
    rsqrt_table.length = 32 ∧
      (∀ e, e < 32 → e ≠ 19 → isRoundInvSqrt e (tableAt e)) ∧
      tableAt 19 = 90 ∧ isRoundInvSqrt 19 91 ∧
      (∀ e, e < 31 → tableAt (e + 1) < tableAt e) :=
  ⟨by decide, by decide, by decide, by decide, by decide⟩

/-- Witness for C6 (amended) at `e = 0` and the decrease at `e = 0`. -/
theorem c6_amended_witness : isRoundInvSqrt 0 (tableAt 0) ∧ tableAt 1 < tableAt 0 :=
  ⟨c6_amended.2.1 0 (by norm_num) (by norm_num), c6_amended.2.2.2.2 0 (by norm_num)⟩


/-- C7 counterexample: `fast_rsqrt` is not strictly decreasing across all
power-of-two pairs: `fast_rsqrt (2^29) = fast_rsqrt (2^30) = 2`. -/
theorem c7_counterexample : ¬ (fast_rsqrt (2 ^ 29) > fast_rsqrt (2 ^ 30)) := by decide

/-- C7 amended: on powers of two `fast_rsqrt` is monotonically
non-increasing, and strictly decreasing for every pair `e1 < e2` except
the single pair `(29, 30)`, where both inputs yield 2. -/
theorem c7_amended :
    (∀ e1, e1 < 32 → ∀ e2, e2 < 32 → e1 < e2 →
        fast_rsqrt (2 ^ e2) ≤ fast_rsqrt (2 ^ e1)) ∧
      (∀ e1, e1 < 32 → ∀ e2, e2 < 32 → e1 < e2 → ¬(e1 = 29 ∧ e2 = 30) →
        fast_rsqrt (2 ^ e2) < fast_rsqrt (2 ^ e1)) ∧
      fast_rsqrt (2 ^ 29) = fast_rsqrt (2 ^ 30) := by decide

/-- Witness for C7 (amended) at the pair `(0, 31)`. -/
theorem c7_amended_witness : fast_rsqrt (2 ^ 31) < fast_rsqrt (2 ^ 0) :=
  c7_amended.2.1 0 (by norm_num) 31 (by norm_num) (by norm_num) (by norm_num)

/-! ### Totality, range, and purity (claims C8, C9) -/

/-- `newton_iter` always produces a 32-bit value: its last operation is a
truncating cast to `uint32`. -/
theorem newton_iter_lt (x y : Nat) : newton_iter x y < 2 ^ 32 := by
  unfold newton_iter
  exact Nat.mod_lt _ (by norm_num)

/-- C8: for every 32-bit input, `fast_rsqrt` returns a value in
`[0, 0xFFFFFFFF]`.  (Termination is by construction of the embedding: the
`clz` narrowing is five fixed steps, `mul32` is a fold over exactly 32
bits, and the Newton refinement is two applications of `newton_iter`.) -/
theorem c8_total_in_range (x : Nat) (hx : x < 2 ^ 32) :
    fast_rsqrt x ≤ 0xFFFFFFFF := by
  unfold fast_rsqrt
  split_ifs with h0 h1
  · norm_num
  · norm_num
  · have := newton_iter_lt x (newton_iter x (interp x))
    omega

/-- Witness for C8 at `x = 123`. -/
theorem c8_total_in_range_witness : fast_rsqrt 123 ≤ 0xFFFFFFFF :=
  c8_total_in_range 123 (by norm_num)

/-- C9: `mul32`, `clz` and `fast_rsqrt` are deterministic pure functions:
two invocations with equal arguments yield equal results.  In the shallow
embedding this is definitional — none of the three reads or writes any
mutable state, and the only shared data (`rsqrt_table`) is an immutable
constant. -/
theorem c9_pure_deterministic (a a' b b' u u' v v' : Nat)
    (hab : a = a') (hbb : b = b') (hu : u = u') (hv : v = v') :
    mul32 a b = mul32 a' b' ∧ clz u = clz u' ∧ fast_rsqrt v = fast_rsqrt v' := by
  subst hab; subst hbb; subst hu; subst hv
  exact ⟨rfl, rfl, rfl⟩

/-- Witness for C9 at concrete arguments. -/
theorem c9_pure_deterministic_witness :
    mul32 3 4 = mul32 3 4 ∧ clz 5 = clz 5 ∧ fast_rsqrt 6 = fast_rsqrt 6 :=
  c9_pure_deterministic 3 3 4 4 5 5 6 6 rfl rfl rfl rfl

/-! ### The interpolation step never wraps (claim C10) -/

/-- Every table entry fits in 32 bits. -/
theorem table_lt : ∀ e, e < 32 → tableAt e < 2 ^ 32 := by decide

/-- The table is strictly decreasing between consecutive entries. -/
theorem table_strict_dec : ∀ e, e < 31 → tableAt (e + 1) < tableAt e := by decide

/-- Wrapped `uint32` subtraction agrees with exact subtraction when the
subtrahend does not exceed the (32-bit) minuend. -/
theorem sub_wrap {a b : Nat} (h : b ≤ a) (ha : a < 2 ^ 32) :
    (2 ^ 32 + a - b) % 2 ^ 32 = a - b := by
  have he : 2 ^ 32 + a - b = 2 ^ 32 + (a - b) := by omega
  rw [he, Nat.add_mod_left]
  exact Nat.mod_eq_of_lt (by omega)

/-- The next table entry sits strictly below the current one, for every
exponent the code can produce. -/
theorem y_next_lt {l : Nat} (hl : l ≤ 31) : y_next l < tableAt l := by
  by_cases h31 : l < 31
  · simpa [y_next, h31] using table_strict_dec l h31
  · have hl31 : l = 31 := by omega
    subst hl31
    simp only [y_next, lt_irrefl, if_neg, Nat.lt_irrefl]
    decide

/-- Evaluation of the interpolation branch: for a 32-bit input strictly
between consecutive powers of two, `interp` returns exactly
`rsqrt_table[log2 x] - corr`, with `frac < 2^16`, `corr < delta`, and no
`uint32` wraparound anywhere. -/
theorem interp_eval (x : Nat) (h1 : 1 < x) (h2 : x < 2 ^ 32)
    (hgt : 2 ^ Nat.log2 x < x) :
    fracAt x (Nat.log2 x) < 65536 ∧
      corrAt x (Nat.log2 x) < deltaAt (Nat.log2 x) ∧
      interp x = tableAt (Nat.log2 x) - corrAt x (Nat.log2 x) := by
  set l := Nat.log2 x with hldef
  have hx0 : x ≠ 0 := by omega
  have hclz := clz_add_log2 hx0 h2
  have hexp : 31 - clz x = l := by omega
  have hlle : l ≤ 31 := by omega
  have hub : x < 2 ^ (l + 1) := Nat.lt_log2_self
  have htl : tableAt l < 2 ^ 32 := table_lt l (by omega)
  have hynlt : y_next l < tableAt l := y_next_lt hlle
  have hdpos : 0 < deltaAt l := by unfold deltaAt; omega
  have hpow : 2 ^ (l + 1) = 2 * 2 ^ l := by rw [pow_succ]; ring
  have hsub : x - (1 <<< l) < 2 ^ l := by rw [Nat.one_shiftLeft]; omega
  -- frac is a genuine Q16 fraction: strictly below 2^16
  have hfrac : fracAt x l < 65536 := by
    unfold fracAt
    rw [Nat.shiftLeft_eq, Nat.shiftRight_eq_div_pow,
      Nat.div_lt_iff_lt_mul (Nat.two_pow_pos l)]
    calc (x - (1 <<< l)) * 2 ^ 16 < 2 ^ l * 2 ^ 16 :=
        Nat.mul_lt_mul_of_lt_of_le hsub (le_refl _) (Nat.two_pow_pos 16)
      _ = 65536 * 2 ^ l := by ring
  have hfrac32 : fracAt x l < 2 ^ 32 := lt_trans hfrac (by norm_num)
  have hdelta32 : deltaAt l < 2 ^ 32 :=
    lt_of_le_of_lt (Nat.sub_le _ _) htl
  have hmul : mul32 (deltaAt l) (fracAt x l) = deltaAt l * fracAt x l :=
    mul32_exact hdelta32 hfrac32
  -- the correction is strictly smaller than the gap
  have hcorr : corrAt x l < deltaAt l := by
    unfold corrAt
    rw [hmul, Nat.shiftRight_eq_div_pow,
      Nat.div_lt_iff_lt_mul (Nat.two_pow_pos 16)]
    exact Nat.mul_lt_mul_of_le_of_lt (le_refl _) hfrac hdpos
  refine ⟨hfrac, hcorr, ?_⟩
  -- now evaluate `interp` itself
  have hguard : 1 <<< l < x := by rw [Nat.one_shiftLeft]; exact hgt
  have hE1 : (2 ^ 32 + tableAt l - y_next l) % 2 ^ 32 = deltaAt l := by
    unfold deltaAt
    exact sub_wrap (le_of_lt hynlt) htl
  have hE2 : ((((x - (1 <<< l)) <<< 16) % 2 ^ 64) >>> l) % 2 ^ 32 = fracAt x l := by
    have hsl : (x - (1 <<< l)) <<< 16 < 2 ^ 64 := by
      rw [Nat.shiftLeft_eq]
      calc (x - (1 <<< l)) * 2 ^ 16 < 2 ^ l * 2 ^ 16 :=
          Nat.mul_lt_mul_of_lt_of_le hsub (le_refl _) (Nat.two_pow_pos 16)
        _ = 2 ^ (l + 16) := by rw [← pow_add]
        _ ≤ 2 ^ 47 := Nat.pow_le_pow_right (by norm_num) (by omega)
        _ < 2 ^ 64 := by norm_num
    rw [Nat.mod_eq_of_lt hsl]
    exact Nat.mod_eq_of_lt (lt_trans hfrac (by norm_num))
  have hE3 : (mul32 (deltaAt l) (fracAt x l) >>> 16) % 2 ^ 32 = corrAt x l := by
    unfold corrAt
    exact Nat.mod_eq_of_lt (lt_trans hcorr hdelta32)
  have hynif : (if l < 31 then tableAt (l + 1) else 0) = y_next l := rfl
  simp only [interp, hexp]
  rw [if_pos hguard, hynif, hE1, hE2, hE3]
  exact sub_wrap (le_of_lt (lt_of_lt_of_le hcorr (Nat.sub_le _ _))) htl

/-- C10: for every 32-bit `x > 1` that is not a power of two, with
`exp = 31 - clz x`, the interpolation computes `frac < 65536` and a
correction strictly below `delta = rsqrt_table[exp] - y_next`; hence the
estimate entering Newton refinement satisfies
`y_next < interp x ≤ rsqrt_table[exp]`, and neither `uint32` subtraction
(`delta` or `y -= corr`) wraps around. -/
theorem c10_interpolation_bounds (x : Nat) (h1 : 1 < x) (h2 : x < 2 ^ 32)
    (hnp : ∀ e, e < 32 → x ≠ 2 ^ e) :
    fracAt x (31 - clz x) < 65536 ∧
      corrAt x (31 - clz x) < deltaAt (31 - clz x) ∧
      y_next (31 - clz x) ≤ tableAt (31 - clz x) ∧
      interp x = tableAt (31 - clz x) - corrAt x (31 - clz x) ∧
      y_next (31 - clz x) < interp x ∧
      interp x ≤ tableAt (31 - clz x) := by
  have hx0 : x ≠ 0 := by omega
  have hclz := clz_add_log2 hx0 h2
  have hexp : 31 - clz x = Nat.log2 x := by omega
  have hlle : Nat.log2 x ≤ 31 := by omega
  have hlb : 2 ^ Nat.log2 x ≤ x := Nat.log2_self_le hx0
  have hgt : 2 ^ Nat.log2 x < x :=
    lt_of_le_of_ne hlb (fun h => hnp (Nat.log2 x) (by omega) h.symm)
  obtain ⟨hfrac, hcorr, heq⟩ := interp_eval x h1 h2 hgt
  have hynlt : y_next (Nat.log2 x) < tableAt (Nat.log2 x) := y_next_lt hlle
  have hdelta : deltaAt (Nat.log2 x) = tableAt (Nat.log2 x) - y_next (Nat.log2 x) := rfl
  rw [hexp]
  refine ⟨hfrac, hcorr, by omega, heq, by omega, by omega⟩

/-- Witness for C10 at `x = 20` (between `2^4` and `2^5`). -/
theorem c10_interpolation_bounds_witness :
    fracAt 20 (31 - clz 20) < 65536 ∧
      corrAt 20 (31 - clz 20) < deltaAt (31 - clz 20) ∧
      y_next (31 - clz 20) ≤ tableAt (31 - clz 20) ∧
      interp 20 = tableAt (31 - clz 20) - corrAt 20 (31 - clz 20) ∧
      y_next (31 - clz 20) < interp 20 ∧
      interp 20 ≤ tableAt (31 - clz 20) :=
  c10_interpolation_bounds 20 (by norm_num) (by norm_num) (by decide)


end Rsqrt
